import Mathlib

set_option maxRecDepth 100000

/-!
Verification of the Trade Lifecycle & P&L State Engine of the
tiltedtrades trades-data pipeline.

The definitions below are a shallow embedding of the Python source:

* `models/trading_execution.py` — `TradingExecution.from_original_data`
  (the per-row Tracker step), `TradingExecution.is_valid`,
  `TradingExecution.parse_decimal`, `calculate_position_effect`,
  `apply_symbol_conversion`;
* `utils/calculations.py` — `calculate_notional_value`;
* `utils/historical_context.py` — `sort_trades_chronologically`,
  `_parse_dbkey_for_sort`, `_parse_date_for_sort`, `_parse_time_for_sort`,
  `_get_trades_since_last_close`, `calculate_running_positions`,
  `build_historical_context` (its pure filtering part);
* `handlers/json_conversion.py` — `convert_to_json` (its pure part:
  batch-id extraction, historical-context seeding, per-row loop).

Python `Decimal` values are modelled as `ℚ` (Decimal arithmetic on the
operations used here — addition, multiplication, negation — is exact, so
`ℚ` is a faithful value model).  Python `int()` applied to a `Decimal`
truncates toward zero and is modelled by `truncQ`.  Python dictionaries
(insertion ordered) are modelled by association lists with in-place
update (`alSet`) and defaulted lookup (`alGet`).  Transaction ids
(`DBKey`) are integral in this system (they are parsed from integer
transaction-id text and stored as DynamoDB numbers), so persisted ids
are modelled as integers; a string-typed or missing `DBKey` is kept as a
separate constructor because the sorting and filtering code treats those
cases specially.  I/O (DynamoDB queries, pagination, logging) is outside
the embedding; the functions modelled here are the pure computations the
handlers run on already-fetched data.
-/

/-- Truncation toward zero of a rational, the model of Python `int()`
applied to an exact `Decimal` value: `int(Decimal('2.5')) = 2`,
`int(Decimal('-2.5')) = -2`. -/
def truncQ (q : ℚ) : ℤ :=
  q.num.tdiv (q.den : ℤ)

/-- Split a character list at every occurrence of `sep`, keeping empty
pieces (the semantics of Python `str.split(sep)` with an explicit
separator). -/
def splitChAux (sep : Char) : List Char → List Char → List (List Char)
  | [], cur => [cur.reverse]
  | c :: rest, cur =>
      if c = sep then cur.reverse :: splitChAux sep rest []
      else splitChAux sep rest (c :: cur)

/-- Python `s.split(sep)` for a single-character separator (every
separator in the source is a single character). -/
def splitOnCh (sep : Char) (s : String) : List String :=
  (splitChAux sep s.toList []).map String.mk

/-- Python `str.strip()` of surrounding whitespace (as performed by
`Decimal(value)` and `float(value)` on string input). -/
def trimStr (s : String) : String :=
  String.mk (((s.toList.dropWhile Char.isWhitespace).reverse.dropWhile Char.isWhitespace).reverse)

/-- Python `str.lower()` (ASCII inputs). -/
def toLowerStr (s : String) : String :=
  String.mk (s.toList.map Char.toLower)

/-- Python `c in s` for a single character. -/
def containsCh (c : Char) (s : String) : Bool :=
  s.toList.contains c

/-- Lexicographic strict comparison of character lists by code point
(the ordering Python uses for `str < str`). -/
def strLtCh : List Char → List Char → Bool
  | [], [] => false
  | [], _ :: _ => true
  | _ :: _, [] => false
  | a :: as, b :: bs => if a < b then true else if b < a then false else strLtCh as bs

/-- Python `a < b` on strings. -/
def strLtB (a b : String) : Bool :=
  strLtCh a.toList b.toList

/-- Python `a <= b` on strings. -/
def strLeB (a b : String) : Bool :=
  !(strLtCh b.toList a.toList)

/-- Defaulted lookup in an association list, the model of Python
`dict.get(k, d)`. -/
def alGet {α : Type} : List (String × α) → String → α → α
  | [], _, d => d
  | (k₀, v₀) :: rest, k, d => if k₀ = k then v₀ else alGet rest k d

/-- Insert-or-update in an association list, the model of Python
`dict[k] = v` (updates in place, appends new keys at the end, matching
insertion-ordered Python dictionaries). -/
def alSet {α : Type} : List (String × α) → String → α → List (String × α)
  | [], k, v => [(k, v)]
  | (k₀, v₀) :: rest, k, v =>
      if k₀ = k then (k₀, v) :: rest else (k₀, v₀) :: alSet rest k v

/-- The `Status` strings written by `from_original_data` are exactly
`f"To Open {ticker}"`, `f"To Close {ticker}"` and `""`; they are modelled
structurally.  (`"To Close" in status` in the source is a substring test
on those strings; on the values the code actually writes it holds exactly
for the `toClose` form.) -/
inductive St where
  | toOpen (ticker : String)
  | toClose (ticker : String)
  | blank
  deriving DecidableEq, Repr

/-- Whether a status is the `To Close` form. -/
def isCloseSt : St → Bool
  | St.toClose _ => true
  | _ => false

/-- A persisted `DBKey` value as seen by `historical_context.py`:
a DynamoDB number (integral in this system), a raw string, or Python
`None`. -/
inductive DBV where
  | int (n : ℤ)
  | strv (s : String)
  | nullv
  deriving DecidableEq, Repr

/-- Python `str()` of a `DBKey` value (used by the exclusion filter in
`build_historical_context`). -/
def strOfDBV : DBV → String
  | DBV.int n => toString n
  | DBV.strv s => s
  | DBV.nullv => "None"

/-- A persisted trading-execution item as read back from the
`TradingExecutions` table (the fields `historical_context.py` reads).
`dbkey = none` models a record without the `DBKey` attribute;
`positionQty = none` models a record without the `PositionQty`
attribute. -/
structure HistTrade where
  dbkey : Option DBV
  cqgSymbol : String
  positionQty : Option ℤ
  status : St
  positionEffect : ℚ
  date : String
  time : String
  deriving DecidableEq, Repr

/-- One raw batch row after the upstream Excel parse, carrying the fields
`from_original_data` reads.  Dates are modelled post-formatting
(`dateStr`/`timeStr`/`tradingDayStr` are the already formatted strings;
an absent or unparseable date yields `""` in the source).  `quantity` and
`price` model rows whose numeric text parsed; `transactionId = none`
models a missing transaction id (the source then parses the default `0`).
-/
structure Row where
  transactionId : Option ℤ
  dateStr : String
  timeStr : String
  tradingDayStr : String
  cqgSymbol : String
  side : String
  quantity : ℚ
  price : ℚ
  deriving DecidableEq, Repr

/-- The transformed execution produced by `from_original_data` (the
fields the claims are about). -/
structure Exec where
  dbKey : ℚ
  date : String
  time : String
  tradingDay : String
  cqgSymbol : String
  tickerConversion : String
  side : String
  quantity : ℚ
  positionEffect : ℚ
  executionPrice : ℚ
  notionalValue : ℚ
  positionQty : ℤ
  status : St
  pnlPerPosition : Option ℚ
  deriving DecidableEq, Repr

/-- The lookup tables `convert_to_json` passes to the Tracker:
`symbol_conversion : rawSymbol -> ticker` and
`tick_values : ticker -> {multiplier}` (an entry `(t, none)` models a
ticker whose tick-values record lacks the `multiplier` key). -/
structure Tables where
  symbolConversion : List (String × String)
  tickValues : List (String × Option ℚ)
  deriving Repr

/-- The mutable dictionaries `convert_to_json` threads through the
per-row loop: `historical_positions`, `symbol_occurrence_tracker`
(modelled as the list of seen symbols) and `pnl_accumulators`. -/
structure TState where
  positions : List (String × ℤ)
  seen : List String
  pnl : List (String × ℚ)
  deriving DecidableEq, Repr

/-- Model of `TradingExecution.apply_symbol_conversion`: return the converted
ticker, or the symbol itself when the symbol is empty, the table is
empty, or the symbol is not in the table. -/
def applySymbolConversion (symbol : String) (conversionTable : List (String × String)) : String :=
  if symbol = "" ∨ conversionTable = [] then symbol
  else alGet conversionTable symbol symbol

/-- Model of `utils/calculations.py::calculate_notional_value`:
`Multiplier * ExecutionPrice * PositionEffect * -1`, or `0` when the
ticker has no tick-values entry or the entry has no multiplier. -/
def calculate_notional_value (tickerSymbol : String) (executionPrice : ℚ)
    (positionEffect : ℤ) (tickValuesData : List (String × Option ℚ)) : ℚ :=
  match alGet (tickValuesData.map (fun p => (p.1, some p.2))) tickerSymbol none with
  | none => 0
  | some none => 0
  | some (some multiplier) => multiplier * executionPrice * (positionEffect : ℚ) * (-1)

/-- Model of `TradingExecution.calculate_position_effect`: `-quantity` when the
side is case-insensitively `"sell"`, else `quantity`. -/
def calculatePositionEffect (side : String) (quantity : ℚ) : ℚ :=
  if toLowerStr side = "sell" then quantity * (-1) else quantity

/-- The per-row Tracker step: the part of
`TradingExecution.from_original_data` that computes the derived fields
(`PositionEffect`, `NotionalValue`, `PositionQty`, `Status`,
`PnLPerPosition`) and updates the shared dictionaries, together with the
passthrough of the row fields into the new `TradingExecution`. -/
def processRow (tb : Tables) (st : TState) (row : Row) : Exec × TState :=
  let cqg := row.cqgSymbol
  let ticker := applySymbolConversion cqg tb.symbolConversion
  let positionEffect := calculatePositionEffect row.side row.quantity
  let dbKey : ℚ := ((row.transactionId.getD 0 : ℤ) : ℚ)
  let notionalValue := calculate_notional_value ticker row.price (truncQ positionEffect) tb.tickValues
  let isFirst := !(st.seen.contains cqg)
  let currentQty := alGet st.positions cqg 0
  let newQty := currentQty + truncQ positionEffect
  let status :=
    if isFirst then St.toOpen ticker
    else if newQty = 0 then St.toClose ticker
    else if currentQty = 0 then St.toOpen ticker
    else St.blank
  let acc := alGet st.pnl ticker 0 + notionalValue
  let pnlPer : Option ℚ := if isCloseSt status then some acc else none
  let accAfter : ℚ := if isCloseSt status then 0 else acc
  (⟨dbKey, row.dateStr, row.timeStr, row.tradingDayStr, cqg, ticker, row.side,
    row.quantity, positionEffect, row.price, notionalValue, newQty, status, pnlPer⟩,
   ⟨alSet st.positions cqg newQty,
    (if isFirst then st.seen ++ [cqg] else st.seen),
    alSet st.pnl ticker accAfter⟩)

/-- Model of `TradingExecution.is_valid`: the primary key must be truthy and the
date, time, trading-day, symbol and side strings non-empty. -/
def isValidExec (e : Exec) : Bool :=
  e.dbKey ≠ 0 && e.date ≠ "" && e.time ≠ "" && e.tradingDay ≠ "" &&
    e.cqgSymbol ≠ "" && e.side ≠ ""

/-- The per-row loop of `convert_to_json` run over every row: each row
produces one `TradingExecution` and updates the shared state. -/
def processAll (tb : Tables) : TState → List Row → List Exec × TState
  | st, [] => ([], st)
  | st, r :: rs =>
      let p := processRow tb st r
      let q := processAll tb p.2 rs
      (p.1 :: q.1, q.2)

/-- The per-row loop of `convert_to_json` as it builds `json_items`:
only rows whose execution passes `is_valid` are kept in the output. -/
def processRows (tb : Tables) (st : TState) (rows : List Row) : List Exec × TState :=
  let p := processAll tb st rows
  (p.1.filter isValidExec, p.2)

/-- The lifecycle rule order exactly as the specification states it
(`If !seenBefore → Open; else if newQty == 0 → Close; else if
positionQty == 0 → Open; else Continue`), for comparison with the
status computed by `processRow`.  `Continue` is the empty status. -/
def statusSpec (seenBefore : Bool) (prevQty newQty : ℤ) (ticker : String) : St :=
  if !seenBefore then St.toOpen ticker
  else if newQty = 0 then St.toClose ticker
  else if prevQty = 0 then St.toOpen ticker
  else St.blank

/-! ### Numeric text parsing and the binary64 model

`TradingExecution.parse_decimal` converts scientific-notation text via
Python `float` (`Decimal(str(float(value)))`), and
`_parse_dbkey_for_sort` converts string ids via `int(float(dbkey))`.
`float` is IEEE-754 binary64 with round-to-nearest, ties-to-even;
`str` of a float is the shortest decimal string that round-trips to the
same float.  Both are modelled exactly at the value level for the normal
range of binary64 (overflow to infinity, subnormal underflow and the
`inf`/`nan` literals are outside the model, as are non-string inputs to
`parse_decimal`). -/

/-- Numeric value of a non-empty all-digit character list. -/
def digitsVal (cs : List Char) : ℕ :=
  cs.foldl (fun a c => a * 10 + (c.toNat - ('0').toNat)) 0

/-- Parse a non-empty run of decimal digits. -/
def parseUIntDigits (cs : List Char) : Option ℕ :=
  if cs ≠ [] ∧ cs.all Char.isDigit then some (digitsVal cs) else none

/-- Strip one optional leading sign, returning (isNegative, rest). -/
def splitSign (s : String) : Bool × String :=
  match s.toList with
  | '-' :: rest => (true, String.mk rest)
  | '+' :: rest => (false, String.mk rest)
  | _ => (false, s)

/-- Parse an unsigned decimal literal `digits`, `digits.digits`,
`digits.` or `.digits` to its exact rational value. -/
def parseUnsignedDec (s : String) : Option ℚ :=
  match splitOnCh '.' s with
  | [a] => (parseUIntDigits a.toList).map (fun n => (n : ℚ))
  | [a, b] =>
      if (a.toList.all Char.isDigit && b.toList.all Char.isDigit)
          && !(a = "" && b = "") then
        some ((digitsVal a.toList : ℚ) + (digitsVal b.toList : ℚ) / (10 : ℚ) ^ b.length)
      else none
  | _ => none

/-- Exact value of a plain (exponent-free) decimal literal as accepted by
`Decimal(value)`: optional sign, digits with at most one point. -/
def parseDecLit (s : String) : Option ℚ :=
  let t := splitSign s
  (parseUnsignedDec t.2).map (fun q => if t.1 then -q else q)

/-- Exact value of a float literal as accepted by Python `float(value)`:
optional sign, mantissa with at most one point, optional `e`/`E`
exponent with optional sign. -/
def parseFloatLit (s : String) : Option ℚ :=
  let t := splitSign s
  let lowered := String.mk (t.2.toList.map (fun c => if c = 'E' then 'e' else c))
  let signed : ℚ → ℚ := fun q => if t.1 then -q else q
  match splitOnCh 'e' lowered with
  | [m] => (parseUnsignedDec m).map signed
  | [m, ex] =>
      match parseUnsignedDec m, splitSign ex with
      | some mv, (eneg, edig) =>
          (parseUIntDigits edig.toList).map (fun ev =>
            signed (mv * (10 : ℚ) ^ (if eneg then -(ev : ℤ) else (ev : ℤ))))
      | none, _ => none
  | _ => none

/-- Binary exponent of a positive rational (`2^e ≤ q < 2^(e+1)`), by a
fuelled normalisation loop. -/
def log2Fuel : ℕ → ℚ → ℤ
  | 0, _ => 0
  | f + 1, q =>
      if q < 1 then log2Fuel f (q * 2) - 1
      else if 2 ≤ q then log2Fuel f (q / 2) + 1
      else 0

/-- Decimal exponent of a positive rational (`10^e ≤ q < 10^(e+1)`). -/
def log10Fuel : ℕ → ℚ → ℤ
  | 0, _ => 0
  | f + 1, q =>
      if q < 1 then log10Fuel f (q * 10) - 1
      else if 10 ≤ q then log10Fuel f (q / 10) + 1
      else 0

/-- Round a rational to the nearest integer, ties to even. -/
def roundHalfEven (x : ℚ) : ℤ :=
  let f : ℤ := x.num.fdiv (x.den : ℤ)
  let r : ℚ := x - (f : ℚ)
  if r < 1 / 2 then f
  else if 1 / 2 < r then f + 1
  else if f % 2 = 0 then f else f + 1

/-- Exact value of the binary64 double nearest to `q` (round to nearest,
ties to even; 53-bit significand; normal range). -/
def roundToDouble (q : ℚ) : ℚ :=
  if q = 0 then 0
  else
    let a := |q|
    let e := log2Fuel 8000 a
    let m := roundHalfEven (a * (2 : ℚ) ^ ((52 : ℤ) - e))
    let d := (m : ℚ) * (2 : ℚ) ^ (e - 52)
    if q < 0 then -d else d

/-- Round a rational to `prec` significant decimal digits, ties to
even. -/
def roundSig (d : ℚ) (prec : ℕ) : ℚ :=
  if d = 0 then 0
  else
    let a := |d|
    let e := log10Fuel 8000 a
    let scale := (10 : ℚ) ^ ((prec : ℤ) - 1 - e)
    let v := (roundHalfEven (a * scale) : ℚ) / scale
    if d < 0 then -v else v

/-- Value of `str(f)` for a double of exact value `d`: the shortest
correctly rounded decimal that round-trips to the same double (what
`Decimal(str(float(...)))` re-parses exactly). -/
def reprValue (d : ℚ) : ℚ :=
  match (List.range 17).findSome? (fun i =>
    let c := roundSig d (i + 1)
    if roundToDouble c = d then some c else none) with
  | some c => c
  | none => roundSig d 17

/-- The `'E' in value.upper()` test of `parse_decimal`. -/
def containsE (s : String) : Bool :=
  containsCh 'E' s || containsCh 'e' s

/-- Model of `TradingExecution.parse_decimal` on a string input: text containing
an exponent marker is converted as `Decimal(str(float(value)))`
(binary64 then shortest round-trip decimal); other text is converted
exactly by `Decimal(value)`; on any conversion failure the original
string is returned (`Sum.inr`), never an exception.  (`Decimal` and
`float` strip surrounding whitespace, modelled by `trim`.) -/
def parse_decimal (s : String) : ℚ ⊕ String :=
  if containsE s then
    match parseFloatLit (trimStr s) with
    | some q => Sum.inl (reprValue (roundToDouble q))
    | none => Sum.inr s
  else
    match parseDecLit (trimStr s) with
    | some q => Sum.inl q
    | none => Sum.inr s

/-! ### History reconciliation (`utils/historical_context.py`) -/

/-- Model of `_parse_dbkey_for_sort` applied to `trade.get('DBKey', 0)`: a number
is truncated to `int`; a string goes through `int(float(dbkey))`; a
missing attribute defaults to `0`; `None` or a conversion failure yields
`0`. -/
def parseDbkeyForSort (dbkey : Option DBV) : ℤ :=
  match dbkey with
  | none => 0
  | some (DBV.int n) => n
  | some (DBV.strv s) =>
      match parseFloatLit (trimStr s) with
      | some q => truncQ (roundToDouble q)
      | none => 0
  | some DBV.nullv => 0

/-- The `'DBKey' in trade` test. -/
def hasDbkey (t : HistTrade) : Bool :=
  t.dbkey.isSome

/-- Left-pad a string with zeros to width `n` (Python `str.zfill`). -/
def zfill (n : ℕ) (s : String) : String :=
  if n ≤ s.length then s else String.mk (List.replicate (n - s.length) '0') ++ s

/-- Model of `_parse_date_for_sort`: normalise a date string to `YYYY-MM-DD` for
string comparison. -/
def parseDateForSort (dateStr : String) : String :=
  if dateStr = "" then "1900-01-01"
  else if containsCh '-' dateStr && ((splitOnCh '-' dateStr).headD "").length = 4 then
    (splitOnCh ' ' dateStr).headD ""
  else if containsCh '/' dateStr then
    let parts := splitOnCh '/' ((splitOnCh ' ' dateStr).headD "")
    if parts.length = 3 then
      (parts.getD 2 "") ++ "-" ++ zfill 2 (parts.getD 0 "") ++ "-" ++ zfill 2 (parts.getD 1 "")
    else dateStr
  else dateStr

/-- Model of `_parse_time_for_sort`: take the time part after a space, defaulting
the empty string. -/
def parseTimeForSort (timeStr : String) : String :=
  if timeStr = "" then "00:00:00.000"
  else if containsCh ' ' timeStr then (splitOnCh ' ' timeStr).getD 1 ""
  else timeStr

/-- Stable insertion of `x` (which came later in the input) into an
already sorted list: `x` goes after every element `≤`-below-or-tied with
it. -/
def insertS {α : Type} (le : α → α → Bool) (x : α) : List α → List α
  | [] => [x]
  | y :: ys => if le y x then y :: insertS le x ys else x :: y :: ys

/-- Stable sort by a boolean total preorder, the model of Python
`sorted(..., key=...)` (a stable sort's output is uniquely determined by
the input order and the key preorder, so any stable algorithm is a
faithful model). -/
def stableSort {α : Type} (le : α → α → Bool) (l : List α) : List α :=
  l.foldl (fun acc x => insertS le x acc) []

/-- Comparison by parsed `DBKey` used by `sort_trades_chronologically`.
-/
def dbkeyLe (a b : HistTrade) : Bool :=
  parseDbkeyForSort a.dbkey ≤ parseDbkeyForSort b.dbkey

/-- Comparison by the `(date, time)` fallback key tuple. -/
def dtLe (a b : HistTrade) : Bool :=
  if parseDateForSort a.date = parseDateForSort b.date then
    strLeB (parseTimeForSort a.time) (parseTimeForSort b.time)
  else strLtB (parseDateForSort a.date) (parseDateForSort b.date)

/-- Model of `sort_trades_chronologically`: sort by parsed `DBKey` when any trade
has the attribute, otherwise by the `(date, time)` string keys. -/
def sortTradesChron (trades : List HistTrade) : List HistTrade :=
  if trades.any hasDbkey then stableSort dbkeyLe trades
  else stableSort dtLe trades

/-- A trade at which the backward scan of `_get_trades_since_last_close`
stops: `PositionQty` present and zero, and a `To Close` status. -/
def closeMark (t : HistTrade) : Bool :=
  t.positionQty = some 0 && isCloseSt t.status

/-- Model of `_get_trades_since_last_close`: empty input yields empty; if no trade
has a `PositionQty` attribute the whole history is returned; otherwise
the trades strictly after the last `closeMark` are returned (the source
scans backwards from the end to the first such trade and slices after
it; scanning back collecting every trade until the first `closeMark` is
exactly `takeWhile` on the reversed list, and when no `closeMark` exists
the slice is the whole list). -/
def tradesSinceLastClose (sortedTrades : List HistTrade) : List HistTrade :=
  if sortedTrades.isEmpty then []
  else if !(sortedTrades.any (fun t => t.positionQty.isSome)) then sortedTrades
  else (sortedTrades.reverse.takeWhile (fun t => !(closeMark t))).reverse

/-- The inline max-id parse of `build_historical_context`: `Decimal` and
`int` ids convert exactly; a string id goes through `int(float(...))`
whose failure is caught (the trade is then kept, modelled as `none`);
a `None` or missing id skips the comparison. -/
def maxKeyParse (dbkey : Option DBV) : Option ℤ :=
  match dbkey with
  | none => none
  | some DBV.nullv => none
  | some (DBV.int n) => some n
  | some (DBV.strv s) => (parseFloatLit (trimStr s)).map (fun q => truncQ (roundToDouble q))

/-- The per-trade filter of `build_historical_context`: drop a trade
whose `str(DBKey)` is in `excludeIds`, then drop it when a specified
`maxId` and a parseable id satisfy `id >= maxId`. -/
def keepTrade (excludeIds : List String) (maxId : Option ℤ) (t : HistTrade) : Bool :=
  if strOfDBV (t.dbkey.getD DBV.nullv) ∈ excludeIds then false
  else
    match maxId, maxKeyParse t.dbkey with
    | some m, some n => n < m
    | _, _ => true

/-- The history filter of `build_historical_context` over a fetched
trade list. -/
def filterHist (excludeIds : List String) (maxId : Option ℤ) (l : List HistTrade) : List HistTrade :=
  l.filter (keepTrade excludeIds maxId)

/-- Model of `calculate_running_positions`: per-symbol sum of `int(PositionEffect)`
in order (symbols with empty names are skipped). -/
def calcRunningPositions (sortedTrades : List HistTrade) : List (String × ℤ) :=
  sortedTrades.foldl (fun pos t =>
    if t.cqgSymbol ≠ "" then alSet pos t.cqgSymbol (alGet pos t.cqgSymbol 0 + truncQ t.positionEffect)
    else pos) []

/-- The pure part of `build_historical_context`: fetch (per symbol, with
`_get_trades_since_last_close` truncation, or the whole store when no
symbol list is given), filter by `excludeIds`/`maxId`, sort, and compute
running positions.  Returns `(sorted trades, positions)`. -/
def buildHistoricalContext (store : List HistTrade) (symbolsInBatch : List String)
    (excludeIds : List String) (maxId : Option ℤ) : List HistTrade × List (String × ℤ) :=
  let allTrades :=
    if symbolsInBatch.isEmpty then store
    else symbolsInBatch.foldl (fun acc sym =>
      acc ++ tradesSinceLastClose (sortTradesChron (store.filter (fun t => t.cqgSymbol = sym)))) []
  let filtered := filterHist excludeIds maxId allTrades
  if filtered.isEmpty then ([], [])
  else
    let sorted := sortTradesChron filtered
    (sorted, calcRunningPositions sorted)

/-! ### The batch pipeline (`handlers/json_conversion.py::convert_to_json`) -/

/-- First-occurrence deduplication, the model of pandas
`Series.unique().tolist()` on the batch symbols. -/
def dedupFirst (l : List String) : List String :=
  l.foldl (fun acc s => if acc.contains s then acc else acc ++ [s]) []

/-- The batch transaction ids with missing values dropped
(`df[...].dropna()`). -/
def batchIds (rows : List Row) : List ℤ :=
  rows.filterMap (fun r => r.transactionId)

/-- Model of `exclude_dbkeys`: the batch ids as strings. -/
def excludeIdsOf (rows : List Row) : List String :=
  (batchIds rows).map (fun n => toString n)

/-- Model of `min_batch_dbkey`: the minimum batch id, when any id is present. -/
def minIdOf (rows : List Row) : Option ℤ :=
  match batchIds rows with
  | [] => none
  | x :: xs => some (xs.foldl min x)

/-- Row comparison for `df.sort_values('Orders_Transactions_TransactionID')`
(missing ids placed last, as pandas does). -/
def rowLe (a b : Row) : Bool :=
  match a.transactionId, b.transactionId with
  | some x, some y => decide (x ≤ y)
  | some _, none => true
  | none, some _ => false
  | none, none => true

/-- The Tracker run of `convert_to_json` given the seeded positions:
`symbol_occurrence_tracker` starts as the keys of the positions map, the
P&L accumulators start empty, the batch is sorted by transaction id, and
each row is processed in order, keeping the valid executions. -/
def runTracker (tb : Tables) (positions : List (String × ℤ)) (rows : List Row) : List Exec :=
  (processRows tb ⟨positions, positions.map (fun p => p.1), []⟩ (stableSort rowLe rows)).1

/-- The whole pure pipeline of `convert_to_json`: build the historical
context from the persisted store (scoped to the batch symbols, excluding
the batch ids and everything at-or-after the batch), seed the Tracker
from the resulting positions, process the batch. -/
def convertBatch (tb : Tables) (store : List HistTrade) (rows : List Row) : List Exec :=
  runTracker tb
    (buildHistoricalContext store (dedupFirst (rows.map (fun r => r.cqgSymbol)))
      (excludeIdsOf rows) (minIdOf rows)).2
    rows

/-- The persisted form of an emitted execution, as
`historical_context.py` later reads it back (ids are integral, DynamoDB
round-trips numeric values exactly). -/
def persistOf (e : Exec) : HistTrade :=
  ⟨some (DBV.int (truncQ e.dbKey)), e.cqgSymbol, some e.positionQty, e.status,
   e.positionEffect, e.date, e.time⟩

/-! ### Specification-side derived notions -/

/-- Sum of `NotionalValue` over the executions of a given ticker. -/
def sumNotional (t : String) (l : List Exec) : ℚ :=
  ((l.filter (fun e => e.tickerConversion == t)).map (fun e => e.notionalValue)).sum

/-- The suffix of already-emitted executions strictly after the last
`Close` of ticker `t` (the batch portion of the currently open position
run of `t`). -/
def afterLastClose (t : String) (l : List Exec) : List Exec :=
  (l.reverse.takeWhile (fun e => !(e.tickerConversion == t && isCloseSt e.status))).reverse

/-! ### A concrete replay scenario

Ticker `S` with multiplier 5.  A first batch buys 1 @ 100 (persisted),
a second batch sells 1 @ 110 against that persisted history, and the
second batch is then re-processed after being persisted itself. -/

def tickTablesS : Tables := ⟨[], [("S", some 5)]⟩

def rowBuy1 : Row := ⟨some 1, "01/02/2024", "09:00:00.000", "2024-01-02", "S", "Buy", 1, 100⟩

def rowSell2 : Row := ⟨some 2, "01/03/2024", "09:30:00.000", "2024-01-03", "S", "Sell", 1, 110⟩

def firstRun : List Exec := convertBatch tickTablesS [] [rowBuy1]

def storeAfterFirst : List HistTrade := firstRun.map persistOf

def secondRun : List Exec := convertBatch tickTablesS storeAfterFirst [rowSell2]

def storeAfterSecond : List HistTrade := storeAfterFirst ++ secondRun.map persistOf

def secondRunAgain : List Exec := convertBatch tickTablesS storeAfterSecond [rowSell2]

/-- A closing execution produced from a seeded position of 1 on `S`. -/
def closeExecW : Exec :=
  ⟨2, "01/03/2024", "09:30:00.000", "2024-01-03", "S", "S", "Sell", 1, -1, 110, 550, 0,
   St.toClose "S", some 550⟩

/-- A first-ever fill of quantity 0: the position nets to zero in one
fill. -/
def rowZeroQty : Row := ⟨some 7, "01/05/2024", "11:00:00.000", "2024-01-05", "Z", "Buy", 0, 10⟩

/-- A buy of fractional quantity 2.5. -/
def rowHalf : Row := ⟨some 3, "01/04/2024", "10:00:00.000", "2024-01-04", "S", "Buy", 5 / 2, 100⟩

/-- A persisted record without the `PositionQty` attribute, followed by
one with it. -/
def mixT1 : HistTrade := ⟨some (DBV.int 1), "S", none, St.toOpen "S", 1, "01/02/2024", "09:00:00.000"⟩

def mixT2 : HistTrade := ⟨some (DBV.int 2), "S", some 0, St.toClose "S", -1, "01/03/2024", "09:30:00.000"⟩

/-- A persisted open position with the position field present. -/
def lonelyOpen : HistTrade := ⟨some (DBV.int 5), "S", some 2, St.toOpen "S", 2, "01/02/2024", "09:00:00.000"⟩

/-- A persisted trade with id 9 (lexically greater than "10",
numerically smaller than 10). -/
def tradeNine : HistTrade := ⟨some (DBV.int 9), "S", some 1, St.toOpen "S", 1, "01/02/2024", "09:00:00.000"⟩

/-- A normalized record is missing a required field when the transaction
id, date, time, ticker symbol or side is absent (the source formats a
missing date/time to `""` and parses a missing id to `Decimal('0')`,
which is falsy). -/
def missingRequired (r : Row) : Prop :=
  r.transactionId = none ∨ r.dateStr = "" ∨ r.timeStr = "" ∨ r.cqgSymbol = "" ∨ r.side = ""

/-- A row whose date failed to parse (empty formatted date). -/
def badRow : Row := ⟨some 4, "", "10:00:00.000", "2024-01-04", "S", "Buy", 1, 100⟩

/-- Two trades: an integer id and an unparseable string id. -/
def sortA : HistTrade := ⟨some (DBV.int 5), "S", some 1, St.toOpen "S", 1, "01/02/2024", "09:00:00.000"⟩

def sortB : HistTrade := ⟨some (DBV.strv "garbage"), "S", some 1, St.blank, 1, "01/03/2024", "09:30:00.000"⟩

/-! ### Association-list lemmas -/

theorem alGet_alSet_self {α : Type} :
    ∀ (m : List (String × α)) (k : String) (v d : α), alGet (alSet m k v) k d = v
  | [], k, v, d => by simp [alSet, alGet]
  | (k₀, v₀) :: rest, k, v, d => by
      by_cases h : k₀ = k
      · simp [alSet, alGet, h]
      · simp [alSet, alGet, h, alGet_alSet_self rest k v d]

theorem alGet_alSet_ne {α : Type} :
    ∀ (m : List (String × α)) (k kq : String) (v d : α), kq ≠ k →
      alGet (alSet m k v) kq d = alGet m kq d
  | [], k, kq, v, d, h => by
      simp only [alSet, alGet]
      rw [if_neg (fun hh => h hh.symm)]
  | (k₀, v₀) :: rest, k, kq, v, d, h => by
      by_cases h₀ : k₀ = k
      · simp only [alSet, if_pos h₀, alGet]
        rw [if_neg (fun hh => h (h₀ ▸ hh).symm), if_neg (fun hh => h (h₀ ▸ hh).symm)]
      · simp only [alSet, if_neg h₀, alGet]
        by_cases h₁ : k₀ = kq
        · rw [if_pos h₁, if_pos h₁]
        · rw [if_neg h₁, if_neg h₁, alGet_alSet_ne rest k kq v d h]

/-! ### Sum/suffix bookkeeping lemmas for the P&L accumulator -/

theorem sumNotional_append (t : String) (l₁ l₂ : List Exec) :
    sumNotional t (l₁ ++ l₂) = sumNotional t l₁ + sumNotional t l₂ := by
  simp [sumNotional, List.filter_append]

theorem sumNotional_single (t : String) (e : Exec) :
    sumNotional t [e] = if e.tickerConversion = t then e.notionalValue else 0 := by
  by_cases h : e.tickerConversion = t <;> simp [sumNotional, h]

theorem afterLastClose_append_one (t : String) (l : List Exec) (e : Exec) :
    afterLastClose t (l ++ [e]) =
      if e.tickerConversion = t ∧ isCloseSt e.status = true then []
      else afterLastClose t l ++ [e] := by
  by_cases h : e.tickerConversion = t ∧ isCloseSt e.status = true
  · have hb : (!(e.tickerConversion == t && isCloseSt e.status)) = false := by
      simp [h.1, h.2]
    simp [afterLastClose, List.takeWhile_cons, hb, h]
  · have hb : (!(e.tickerConversion == t && isCloseSt e.status)) = true := by
      rw [not_and_or] at h
      rcases h with h1 | h1
      · simp [h1]
      · simp [Bool.not_eq_true _ ▸ h1]
    simp [afterLastClose, List.takeWhile_cons, hb, h]

/-! ### Characterization of the per-row Tracker step -/

theorem processRow_tickerConversion (tb : Tables) (st : TState) (row : Row) :
    (processRow tb st row).1.tickerConversion = applySymbolConversion row.cqgSymbol tb.symbolConversion := rfl

theorem processRow_cqgSymbol (tb : Tables) (st : TState) (row : Row) :
    (processRow tb st row).1.cqgSymbol = row.cqgSymbol := rfl

theorem processRow_positionEffect (tb : Tables) (st : TState) (row : Row) :
    (processRow tb st row).1.positionEffect = calculatePositionEffect row.side row.quantity := rfl

theorem processRow_notionalValue (tb : Tables) (st : TState) (row : Row) :
    (processRow tb st row).1.notionalValue =
      calculate_notional_value (applySymbolConversion row.cqgSymbol tb.symbolConversion)
        row.price (truncQ (calculatePositionEffect row.side row.quantity)) tb.tickValues := rfl

theorem processRow_positionQty (tb : Tables) (st : TState) (row : Row) :
    (processRow tb st row).1.positionQty =
      alGet st.positions row.cqgSymbol 0 + truncQ (calculatePositionEffect row.side row.quantity) := rfl

theorem processRow_status_eq_spec (tb : Tables) (st : TState) (row : Row) :
    (processRow tb st row).1.status =
      statusSpec (st.seen.contains row.cqgSymbol) (alGet st.positions row.cqgSymbol 0)
        (processRow tb st row).1.positionQty
        (applySymbolConversion row.cqgSymbol tb.symbolConversion) := rfl

theorem processRow_pnlPer (tb : Tables) (st : TState) (row : Row) :
    (processRow tb st row).1.pnlPerPosition =
      (if isCloseSt (processRow tb st row).1.status then
        some (alGet st.pnl (processRow tb st row).1.tickerConversion 0 +
          (processRow tb st row).1.notionalValue)
      else none) := rfl

theorem processRow_snd_positions (tb : Tables) (st : TState) (row : Row) :
    (processRow tb st row).2.positions =
      alSet st.positions row.cqgSymbol (processRow tb st row).1.positionQty := rfl

theorem processRow_snd_pnl (tb : Tables) (st : TState) (row : Row) :
    (processRow tb st row).2.pnl =
      alSet st.pnl (processRow tb st row).1.tickerConversion
        (if isCloseSt (processRow tb st row).1.status then 0
         else alGet st.pnl (processRow tb st row).1.tickerConversion 0 +
           (processRow tb st row).1.notionalValue) := rfl

theorem processRow_snd_seen (tb : Tables) (st : TState) (row : Row) :
    (processRow tb st row).2.seen =
      (if !(st.seen.contains row.cqgSymbol) then st.seen ++ [row.cqgSymbol] else st.seen) := rfl

/-! ### Characterization of the per-row loop -/

theorem processAll_nil (tb : Tables) (st : TState) : processAll tb st [] = ([], st) := rfl

theorem processAll_cons (tb : Tables) (st : TState) (r : Row) (rs : List Row) :
    processAll tb st (r :: rs) =
      ((processRow tb st r).1 :: (processAll tb (processRow tb st r).2 rs).1,
       (processAll tb (processRow tb st r).2 rs).2) := rfl

theorem processAll_append (tb : Tables) :
    ∀ (l₁ l₂ : List Row) (st : TState),
      processAll tb st (l₁ ++ l₂) =
        ((processAll tb st l₁).1 ++ (processAll tb (processAll tb st l₁).2 l₂).1,
         (processAll tb (processAll tb st l₁).2 l₂).2)
  | [], l₂, st => by simp [processAll]
  | r :: rs, l₂, st => by
      simp only [List.cons_append, processAll_cons, processAll_append tb rs l₂]

/-- Simulation of the per-ticker P&L accumulator: starting from a state
whose accumulators describe an already-emitted prefix `l₀`, after any
further rows the accumulator of each ticker equals the notional sum of
that ticker's executions emitted since its last `Close`, and every
emitted `Close` carries exactly that sum (inclusive) while every
non-`Close` execution carries no realized P&L. -/
theorem pnl_master (tb : Tables) :
    ∀ (rows : List Row) (st : TState) (l₀ : List Exec),
      (∀ t, alGet st.pnl t 0 = sumNotional t (afterLastClose t l₀)) →
      (∀ t, alGet (processAll tb st rows).2.pnl t 0 =
         sumNotional t (afterLastClose t (l₀ ++ (processAll tb st rows).1))) ∧
      (∀ l₁ e l₂, (processAll tb st rows).1 = l₁ ++ e :: l₂ →
         (isCloseSt e.status = true →
            e.pnlPerPosition = some (sumNotional e.tickerConversion
              (afterLastClose e.tickerConversion (l₀ ++ l₁)) + e.notionalValue)) ∧
         (isCloseSt e.status = false → e.pnlPerPosition = none))
  | [], st, l₀, hinv => by
      refine ⟨fun t => ?_, fun l₁ e l₂ h => absurd h (by simp [processAll_nil])⟩
      simpa [processAll_nil] using hinv t
  | r :: rs, st, l₀, hinv => by
      have hinvN : ∀ t, alGet (processRow tb st r).2.pnl t 0 =
          sumNotional t (afterLastClose t (l₀ ++ [(processRow tb st r).1])) := by
        intro t
        rw [processRow_snd_pnl, afterLastClose_append_one]
        by_cases ht : (processRow tb st r).1.tickerConversion = t
        · subst ht
          rw [alGet_alSet_self]
          by_cases hc : isCloseSt (processRow tb st r).1.status = true
          · simp [hc, sumNotional]
          · rw [if_neg hc, if_neg (fun hh => hc hh.2), sumNotional_append,
              sumNotional_single, if_pos rfl, hinv]
        · rw [alGet_alSet_ne _ _ _ _ _ (fun hh => ht hh.symm)]
          rw [if_neg (fun hh => ht hh.1)]
          rw [sumNotional_append, sumNotional_single, if_neg ht, add_zero]
          exact hinv t
      obtain ⟨ih1, ih2⟩ := pnl_master tb rs (processRow tb st r).2
        (l₀ ++ [(processRow tb st r).1]) hinvN
      constructor
      · intro t
        rw [processAll_cons]
        have h2 := ih1 t
        rw [List.append_cons l₀]
        exact h2
      · intro l₁ e l₂ hdec
        rw [processAll_cons] at hdec
        cases l₁ with
        | nil =>
            simp only [List.nil_append, List.cons.injEq] at hdec
            obtain ⟨he, _⟩ := hdec
            subst he
            constructor
            · intro hc
              rw [processRow_pnlPer, if_pos hc, hinv, List.append_nil]
            · intro hc
              rw [processRow_pnlPer, hc]
              simp
        | cons h₁ l₁x =>
            simp only [List.cons_append, List.cons.injEq] at hdec
            obtain ⟨hh, hrest⟩ := hdec
            subst hh
            simpa using ih2 l₁x e l₂ hrest

/-! ### Stable-sort lemmas -/

theorem insertS_perm {α : Type} (le : α → α → Bool) (x : α) :
    ∀ l : List α, (insertS le x l).Perm (x :: l)
  | [] => List.Perm.refl _
  | y :: ys => by
      by_cases h : le y x = true
      · simp only [insertS, if_pos h]
        exact ((insertS_perm le x ys).cons y).trans (List.Perm.swap x y ys)
      · simp only [insertS, if_neg h]
        exact List.Perm.refl _

theorem stableSort_perm_aux {α : Type} (le : α → α → Bool) :
    ∀ (l acc : List α), (l.foldl (fun acc x => insertS le x acc) acc).Perm (acc ++ l)
  | [], acc => by simp
  | x :: xs, acc => by
      simp only [List.foldl_cons]
      exact (stableSort_perm_aux le xs (insertS le x acc)).trans
        (((insertS_perm le x acc).append_right xs).trans List.perm_middle.symm)

theorem stableSort_perm {α : Type} (le : α → α → Bool) (l : List α) :
    (stableSort le l).Perm l := by
  simpa [stableSort] using stableSort_perm_aux le l []

theorem insertS_pairwise {α : Type} (le : α → α → Bool)
    (htrans : ∀ a b c, le a b = true → le b c = true → le a c = true)
    (htot : ∀ a b, le a b = true ∨ le b a = true) (x : α) :
    ∀ l : List α, l.Pairwise (fun a b => le a b = true) →
      (insertS le x l).Pairwise (fun a b => le a b = true)
  | [], _ => by simp [insertS]
  | y :: ys, h => by
      rw [List.pairwise_cons] at h
      obtain ⟨hy, hys⟩ := h
      by_cases hxy : le y x = true
      · simp only [insertS, if_pos hxy]
        rw [List.pairwise_cons]
        refine ⟨fun z hz => ?_, insertS_pairwise le htrans htot x ys hys⟩
        have hz2 : z = x ∨ z ∈ ys := by
          have := (insertS_perm le x ys).mem_iff.mp hz
          simpa using this
        rcases hz2 with rfl | hz2
        · exact hxy
        · exact hy z hz2
      · simp only [insertS, if_neg hxy]
        have hxyT : le x y = true := (htot x y).resolve_right hxy
        rw [List.pairwise_cons]
        refine ⟨fun z hz => ?_, List.pairwise_cons.mpr ⟨hy, hys⟩⟩
        rcases List.mem_cons.mp hz with rfl | hz2
        · exact hxyT
        · exact htrans x y z hxyT (hy z hz2)

theorem stableSort_pairwise_aux {α : Type} (le : α → α → Bool)
    (htrans : ∀ a b c, le a b = true → le b c = true → le a c = true)
    (htot : ∀ a b, le a b = true ∨ le b a = true) :
    ∀ (l acc : List α), acc.Pairwise (fun a b => le a b = true) →
      (l.foldl (fun acc x => insertS le x acc) acc).Pairwise (fun a b => le a b = true)
  | [], _, h => h
  | x :: xs, acc, h =>
      stableSort_pairwise_aux le htrans htot xs (insertS le x acc)
        (insertS_pairwise le htrans htot x acc h)

theorem stableSort_pairwise {α : Type} (le : α → α → Bool)
    (htrans : ∀ a b c, le a b = true → le b c = true → le a c = true)
    (htot : ∀ a b, le a b = true ∨ le b a = true) (l : List α) :
    (stableSort le l).Pairwise (fun a b => le a b = true) :=
  stableSort_pairwise_aux le htrans htot l [] (by simp)

/-! ### A dropWhile fact used for the truncation analysis -/

theorem dropWhile_head_false {α : Type} (p : α → Bool) :
    ∀ (l : List α) (c : α) (rest : List α), l.dropWhile p = c :: rest → p c = false
  | [], c, rest, h => by simp [List.dropWhile] at h
  | x :: xs, c, rest, h => by
      rw [List.dropWhile_cons] at h
      by_cases hx : p x = true
      · rw [if_pos hx] at h
        exact dropWhile_head_false p xs c rest h
      · rw [if_neg hx] at h
        cases h
        exact Bool.not_eq_true _ ▸ hx

/-- C1 counterexample: in the replay scenario the second batch closes the
position run that the persisted history opened.  The emitted `Close`
carries `PnLPerPosition = 550` — the notional of the batch execution
alone — while the notional sum over the whole just-closed run (the
replayed history execution plus the batch execution) is `50`: the P&L
accumulator is not seeded from replayed history, so the claimed equality
fails. -/
theorem c1_counterexample :
    (firstRun.map fun e => (e.positionQty, e.status)) = [(1, St.toOpen "S")] ∧
    (secondRun.map fun e => (e.positionQty, e.status, e.pnlPerPosition)) =
      [(0, St.toClose "S", some 550)] ∧
    sumNotional "S" (firstRun ++ secondRun) = 50 ∧
    some (550 : ℚ) ≠ some (50 : ℚ) := by
  with_unfolding_all decide

/-- C1 (amended): when the Tracker starts with empty P&L accumulators
(as every `convert_to_json` invocation does), an execution's
`PnLPerPosition` is `some` exactly on `Close`, equals the sum of
`NotionalValue` over the executions of the just-closed run that were
emitted in this invocation (inclusive of the closing execution, but not
of any replayed history), and the per-ticker accumulator always equals
the notional sum since that ticker's last emitted `Close` — in
particular it is reset to zero immediately after each `Close`. -/
theorem c1_amended (tb : Tables) (pos : List (String × ℤ)) (seen : List String) (rows : List Row) :
    (∀ t, alGet (processAll tb ⟨pos, seen, []⟩ rows).2.pnl t 0 =
       sumNotional t (afterLastClose t (processAll tb ⟨pos, seen, []⟩ rows).1)) ∧
    (∀ l₁ e l₂, (processAll tb ⟨pos, seen, []⟩ rows).1 = l₁ ++ e :: l₂ →
       (isCloseSt e.status = true →
          e.pnlPerPosition = some (sumNotional e.tickerConversion
            (afterLastClose e.tickerConversion l₁) + e.notionalValue)) ∧
       (isCloseSt e.status = false → e.pnlPerPosition = none)) := by
  have h := pnl_master tb rows ⟨pos, seen, []⟩ []
    (fun t => by simp [alGet, sumNotional, afterLastClose])
  simpa using h

theorem c1_amended_witness :
    closeExecW.pnlPerPosition = some (sumNotional closeExecW.tickerConversion
      (afterLastClose closeExecW.tickerConversion []) + closeExecW.notionalValue) :=
  ((c1_amended tickTablesS [("S", 1)] ["S"] [rowSell2]).2 [] closeExecW []
    (by with_unfolding_all decide)).1 (by with_unfolding_all decide)

/-- C2: lifecycle status is assigned by exactly the ordered rule chain
(first-ever → Open; new quantity 0 → Close; previous quantity 0 → Open;
otherwise Continue, the empty status), and a first-ever execution is
never assigned `Close`, even when its single fill nets the position to
zero. -/
theorem c2_status_rule_order (tb : Tables) (st : TState) (row : Row) :
    (processRow tb st row).1.status =
      statusSpec (st.seen.contains row.cqgSymbol) (alGet st.positions row.cqgSymbol 0)
        (processRow tb st row).1.positionQty
        (applySymbolConversion row.cqgSymbol tb.symbolConversion) ∧
    (st.seen.contains row.cqgSymbol = false →
      ∀ tk, (processRow tb st row).1.status ≠ St.toClose tk) := by
  refine ⟨processRow_status_eq_spec tb st row, fun h tk => ?_⟩
  rw [processRow_status_eq_spec tb st row]
  simp only [statusSpec, h, Bool.not_false, if_true]
  simp

theorem c2_status_rule_order_witness :
    (processRow tickTablesS ⟨[], [], []⟩ rowZeroQty).1.status ≠ St.toClose "Z" :=
  (c2_status_rule_order tickTablesS ⟨[], [], []⟩ rowZeroQty).2 (by with_unfolding_all decide) "Z"

/-- C3 counterexample: for a fractional `PositionEffect` (quantity 2.5),
the recorded `PositionQty` is `0 + int(2.5) = 2`, not the claimed
`0 + 2.5`: the source truncates the effect with `int()` before applying
it. -/
theorem c3_counterexample :
    (processRow tickTablesS ⟨[], [], []⟩ rowHalf).1.positionEffect = 5 / 2 ∧
    (processRow tickTablesS ⟨[], [], []⟩ rowHalf).1.positionQty = 2 ∧
    (((processRow tickTablesS ⟨[], [], []⟩ rowHalf).1.positionQty : ℚ) ≠
      0 + (processRow tickTablesS ⟨[], [], []⟩ rowHalf).1.positionEffect) := by
  with_unfolding_all decide

/-- Per-symbol running-position sum: after a batch, each symbol's
position equals its prior position plus the truncated effects of its
rows, in order. -/
theorem posSum_batch (tb : Tables) :
    ∀ (rows : List Row) (st : TState) (sym : String),
      alGet (processAll tb st rows).2.positions sym 0 =
        alGet st.positions sym 0 +
          ((rows.filter (fun r => r.cqgSymbol == sym)).map
            (fun r => truncQ (calculatePositionEffect r.side r.quantity))).sum
  | [], st, sym => by simp [processAll_nil]
  | r :: rs, st, sym => by
      rw [show (processAll tb st (r :: rs)).2 = (processAll tb (processRow tb st r).2 rs).2 from
        by rw [processAll_cons]]
      rw [posSum_batch tb rs (processRow tb st r).2 sym]
      by_cases h : r.cqgSymbol = sym
      · rw [List.filter_cons_of_pos (by simp [h])]
        simp only [List.map_cons, List.sum_cons]
        rw [processRow_snd_positions, ← h, alGet_alSet_self, processRow_positionQty]
        ring
      · rw [List.filter_cons_of_neg (by simp [h]),
          processRow_snd_positions, alGet_alSet_ne _ _ _ _ _ (fun hh => h hh.symm)]

/-- C3 (amended): the recorded `PositionQty` equals the running quantity
before the execution plus the `int()`-truncation of its
`PositionEffect` (equal to the effect itself whenever the effect is
integral); the running quantity is updated to exactly that value,
other symbols are untouched, and over a whole batch each symbol's final
quantity is its prior quantity plus the in-order sum of its truncated
effects (zero prior for a ticker with no history). -/
theorem c3_amended (tb : Tables) (st : TState) (row : Row) (rows : List Row) (sym : String) :
    ((processRow tb st row).1.positionQty =
       alGet st.positions row.cqgSymbol 0 + truncQ (processRow tb st row).1.positionEffect) ∧
    (alGet (processRow tb st row).2.positions row.cqgSymbol 0 =
       (processRow tb st row).1.positionQty) ∧
    (∀ s, s ≠ row.cqgSymbol →
       alGet (processRow tb st row).2.positions s 0 = alGet st.positions s 0) ∧
    (alGet (processAll tb st rows).2.positions sym 0 =
       alGet st.positions sym 0 +
         ((rows.filter (fun r => r.cqgSymbol == sym)).map
           (fun r => truncQ (calculatePositionEffect r.side r.quantity))).sum) := by
  refine ⟨?_, ?_, fun s hs => ?_, posSum_batch tb rows st sym⟩
  · rw [processRow_positionEffect]
    exact processRow_positionQty tb st row
  · rw [processRow_snd_positions]
    exact alGet_alSet_self _ _ _ _
  · rw [processRow_snd_positions]
    exact alGet_alSet_ne _ _ _ _ _ hs

theorem c3_amended_witness :
    alGet (processRow tickTablesS ⟨[], [], []⟩ rowBuy1).2.positions "X" 0 =
      alGet (⟨[], [], []⟩ : TState).positions "X" 0 :=
  (c3_amended tickTablesS ⟨[], [], []⟩ rowBuy1 [] "X").2.2.1 "X" (by with_unfolding_all decide)

/-- C4 counterexample: a symbol history in which one persisted record
lacks the lifecycle/position field is still truncated (the record
lacking the field is discarded), because the source tests
`any('PositionQty' in trade)` rather than requiring the field on every
record. -/
theorem c4_counterexample :
    mixT1.positionQty = none ∧
    tradesSinceLastClose [mixT1, mixT2] = [] ∧
    tradesSinceLastClose [mixT1, mixT2] ≠ [mixT1, mixT2] := by
  with_unfolding_all decide

/-- C4 (amended): the full history of a symbol is retained exactly when
no persisted record carries the position field; as soon as at least one
record carries it, the truncation runs and returns precisely the trades
strictly after the most recent record with position quantity 0 and a
`To Close` status (the whole history when no such record exists), with
records lacking the field skipped by the backward scan. -/
theorem c4_amended (l : List HistTrade) :
    ((∀ t ∈ l, t.positionQty = none) → tradesSinceLastClose l = l) ∧
    ((∃ t ∈ l, (t.positionQty).isSome = true) →
      (∀ t ∈ tradesSinceLastClose l, closeMark t = false) ∧
      ((∀ t ∈ l, closeMark t = false) → tradesSinceLastClose l = l) ∧
      ((∃ c ∈ l, closeMark c = true) →
        ∃ pre c, closeMark c = true ∧ l = pre ++ c :: tradesSinceLastClose l)) := by
  constructor
  · intro h
    have ha : (l.any fun t => t.positionQty.isSome) = false := by
      rw [List.any_eq_false]
      intro t ht
      rw [h t ht]
      simp
    by_cases he : l.isEmpty = true
    · rw [tradesSinceLastClose, if_pos he]
      exact (List.isEmpty_iff.mp he).symm
    · rw [tradesSinceLastClose, if_neg he, ha]
      simp
  · intro hsome
    have he : l.isEmpty = false := by
      rcases hsome with ⟨t, ht, _⟩
      rcases l with _ | ⟨x, xs⟩
      · simp at ht
      · rfl
    have ha : (l.any fun t => t.positionQty.isSome) = true := List.any_eq_true.mpr hsome
    have hres : tradesSinceLastClose l =
        (l.reverse.takeWhile (fun t => !(closeMark t))).reverse := by
      rw [tradesSinceLastClose, if_neg (by simp [he]), ha]
      simp
    refine ⟨?_, ?_, ?_⟩
    · intro t ht
      rw [hres] at ht
      have hm := List.mem_takeWhile_imp (List.mem_reverse.mp ht)
      simpa using hm
    · intro hnone
      rw [hres]
      have hself : l.reverse.takeWhile (fun t => !(closeMark t)) = l.reverse := by
        rw [List.takeWhile_eq_self_iff]
        intro a ha2
        rw [hnone a (List.mem_reverse.mp ha2)]
        rfl
      rw [hself, List.reverse_reverse]
    · intro hclose
      have hd : l.reverse.dropWhile (fun t => !(closeMark t)) ≠ [] := by
        intro hnil
        rw [List.dropWhile_eq_nil_iff] at hnil
        rcases hclose with ⟨c, hc, hcm⟩
        have := hnil c (List.mem_reverse.mpr hc)
        rw [hcm] at this
        simp at this
      obtain ⟨c, rest, hcr⟩ := List.exists_cons_of_ne_nil hd
      have hpc := dropWhile_head_false (fun t => !(closeMark t)) l.reverse c rest hcr
      have hcm : closeMark c = true := by simpa using hpc
      refine ⟨rest.reverse, c, hcm, ?_⟩
      rw [hres]
      have hsplit : l.reverse.takeWhile (fun t => !(closeMark t)) ++
          l.reverse.dropWhile (fun t => !(closeMark t)) = l.reverse :=
        List.takeWhile_append_dropWhile _ _
      calc l = l.reverse.reverse := (List.reverse_reverse l).symm
        _ = (l.reverse.takeWhile (fun t => !(closeMark t)) ++ (c :: rest)).reverse := by
              rw [← hcr, hsplit]
        _ = (c :: rest).reverse ++ (l.reverse.takeWhile (fun t => !(closeMark t))).reverse := by
              rw [List.reverse_append]
        _ = rest.reverse ++ c :: (l.reverse.takeWhile (fun t => !(closeMark t))).reverse := by
              rw [List.reverse_cons, List.append_assoc]
              rfl

theorem c4_amended_witness : tradesSinceLastClose [lonelyOpen] = [lonelyOpen] :=
  ((c4_amended [lonelyOpen]).2 (by with_unfolding_all decide)).2.1 (by with_unfolding_all decide)

/-- C5: a persisted trade survives the Reconciler's filter exactly when
its stringified id is not among the excluded batch ids and, when a
cutoff is given and the id parses, the id is numerically below the
cutoff (`<`, i.e. every trade with id `>= maxId` is removed, compared as
integers, not as strings). -/
theorem c5_filter (excl : List String) (maxId : Option ℤ) (l : List HistTrade) (t : HistTrade) :
    t ∈ filterHist excl maxId l ↔
      t ∈ l ∧ strOfDBV (t.dbkey.getD DBV.nullv) ∉ excl ∧
        ∀ m n, maxId = some m → maxKeyParse t.dbkey = some n → n < m := by
  rw [filterHist, List.mem_filter]
  have hiff : keepTrade excl maxId t = true ↔
      (strOfDBV (t.dbkey.getD DBV.nullv) ∉ excl ∧
        ∀ m n, maxId = some m → maxKeyParse t.dbkey = some n → n < m) := by
    by_cases hm : strOfDBV (t.dbkey.getD DBV.nullv) ∈ excl
    · simp only [keepTrade, if_pos hm]
      simp [hm]
    · simp only [keepTrade, if_neg hm]
      rcases maxId with _ | m <;> rcases hk : maxKeyParse t.dbkey with _ | n
      · simp [hm, hk]
      · simp [hm, hk]
      · simp [hm, hk]
      · show decide (n < m) = true ↔ _
        simp only [hm, not_false_iff, true_and, decide_eq_true_eq]
        constructor
        · intro h m2 n2 hm2 hn2
          cases hm2
          cases hn2
          exact h
        · intro h
          exact h m n rfl rfl
  rw [hiff]

theorem c5_filter_witness : tradeNine ∈ filterHist ["7"] (some 10) [tradeNine] :=
  (c5_filter ["7"] (some 10) [tradeNine] tradeNine).mpr
    ⟨by with_unfolding_all decide, by with_unfolding_all decide,
     fun m n hm hn => by
       have h9 : maxKeyParse tradeNine.dbkey = some 9 := rfl
       rw [h9] at hn
       simp at hm hn
       omega⟩

/-- C6 counterexample: re-running the second batch after persisting its
first run — same persisted history plus the batch's own persisted
records, with `excludeIds` (derived from the batch) containing every
batch id — changes the output: the per-symbol truncation now cuts at the
`Close` the batch itself persisted, so the filtered history seeding the
Tracker is no longer identical and the re-run classifies the same
execution as `Open` with quantity −1 and no realized P&L. -/
theorem c6_counterexample :
    (secondRun.map fun e => (e.positionQty, e.status, e.pnlPerPosition)) =
      [(0, St.toClose "S", some 550)] ∧
    (secondRunAgain.map fun e => (e.positionQty, e.status, e.pnlPerPosition)) =
      [(-1, St.toOpen "S", none)] ∧
    secondRun ≠ secondRunAgain := by
  with_unfolding_all decide

/-- C6 (amended): the Tracker output is a pure function of the seeded
positions (the reconciled context) and the batch: any two persisted
stores whose reconciled positions for the batch coincide yield
bit-identical outputs, and no state survives between invocations.
(Identical filtered history is, however, not guaranteed by `excludeIds`
alone once the first run is persisted — see the counterexample.) -/
theorem c6_tracker_pure (tb : Tables) (s₁ s₂ : List HistTrade) (rows : List Row)
    (h : (buildHistoricalContext s₁ (dedupFirst (rows.map (fun r => r.cqgSymbol)))
            (excludeIdsOf rows) (minIdOf rows)).2 =
         (buildHistoricalContext s₂ (dedupFirst (rows.map (fun r => r.cqgSymbol)))
            (excludeIdsOf rows) (minIdOf rows)).2) :
    convertBatch tb s₁ rows = convertBatch tb s₂ rows := by
  unfold convertBatch
  rw [h]

theorem c6_tracker_pure_witness :
    convertBatch tickTablesS [] [rowBuy1] = convertBatch tickTablesS storeAfterFirst [rowBuy1] :=
  c6_tracker_pure tickTablesS [] storeAfterFirst [rowBuy1] (by with_unfolding_all decide)

/-- C7: the notional value is exactly `-1 × multiplier × price ×
positionEffect` when the tick-values table carries a multiplier for the
ticker, and exactly 0 when the ticker or its multiplier entry is
missing (the lookup never fails the execution). -/
theorem c7_notional (ticker : String) (price : ℚ) (eff : ℤ) (table : List (String × Option ℚ)) :
    (∀ m, alGet (table.map (fun p => (p.1, some p.2))) ticker none = some (some m) →
        calculate_notional_value ticker price eff table = -1 * m * price * (eff : ℚ)) ∧
    ((alGet (table.map (fun p => (p.1, some p.2))) ticker none = none ∨
        alGet (table.map (fun p => (p.1, some p.2))) ticker none = some none) →
        calculate_notional_value ticker price eff table = 0) := by
  unfold calculate_notional_value
  constructor
  · intro m hm
    rw [hm]
    ring
  · rintro (hm | hm) <;> rw [hm]

theorem c7_notional_witness :
    calculate_notional_value "MES" 100 2 [("MES", some 5)] = -1 * 5 * 100 * ((2 : ℤ) : ℚ) :=
  (c7_notional "MES" 100 2 [("MES", some 5)]).1 5 (by with_unfolding_all decide)

/-- C8 counterexample: scientific-notation text with more precision than
binary64 resolves is not exact-converted.  `"1.0000000000000000001E0"`
denotes exactly `1 + 10⁻¹⁹`, but the source converts the exponent branch
through `float` (`Decimal(str(float(value)))`), and the nearest double
to `1 + 10⁻¹⁹` is `1.0`, so the parser returns `Decimal('1.0')`. -/
theorem c8_counterexample :
    (parseFloatLit (trimStr "1.0000000000000000001E0")).map
      (fun q => q * 10 ^ 19 - 10 ^ 19) = some 1 ∧
    parse_decimal "1.0000000000000000001E0" = Sum.inl 1 ∧
    parseFloatLit (trimStr "1.0000000000000000001E0") ≠ some 1 := by
  with_unfolding_all decide

/-- C8 (amended): `parse_decimal` exact-converts plain (exponent-free)
decimal text; on any conversion failure it returns the original raw
string rather than raising; text containing an exponent marker is
converted through binary64 floating point followed by the shortest
round-tripping decimal representation, which is exact only when that
round trip preserves the value (guaranteed for short mantissas, not in
general). -/
theorem c8_amended :
    (∀ s q, containsE s = false → parseDecLit (trimStr s) = some q →
       parse_decimal s = Sum.inl q) ∧
    (∀ s, containsE s = false → parseDecLit (trimStr s) = none →
       parse_decimal s = Sum.inr s) ∧
    (∀ s, containsE s = true → parseFloatLit (trimStr s) = none →
       parse_decimal s = Sum.inr s) ∧
    (∀ s q, containsE s = true → parseFloatLit (trimStr s) = some q →
       parse_decimal s = Sum.inl (reprValue (roundToDouble q))) := by
  refine ⟨?_, ?_, ?_, ?_⟩
  · intro s q h1 h2
    rw [parse_decimal, if_neg (by simp [h1]), h2]
  · intro s h1 h2
    rw [parse_decimal, if_neg (by simp [h1]), h2]
  · intro s h1 h2
    rw [parse_decimal, if_pos h1, h2]
  · intro s q h1 h2
    rw [parse_decimal, if_pos h1, h2]

theorem c8_amended_witness : parse_decimal "2.5" = Sum.inl (5 / 2) :=
  c8_amended.1 "2.5" (5 / 2) (by with_unfolding_all decide) (by with_unfolding_all decide)

/-- C9: a row missing the transaction id, date, time, ticker symbol or
side fails `is_valid` and contributes nothing to the batch output, while
the loop keeps processing the remaining rows (the output of a batch
splits as the output before the row, nothing for the row, and the output
of the remaining rows from the updated state). -/
theorem c9_row_validation (tb : Tables) :
    (∀ st r, missingRequired r → isValidExec (processRow tb st r).1 = false) ∧
    (∀ st r, isValidExec (processRow tb st r).1 = false → (processRows tb st [r]).1 = []) ∧
    (∀ st l₁ l₂, (processRows tb st (l₁ ++ l₂)).1 =
       (processRows tb st l₁).1 ++ (processRows tb (processAll tb st l₁).2 l₂).1) := by
  refine ⟨?_, ?_, ?_⟩
  · intro st r h
    rcases h with h | h | h | h | h <;>
      simp [isValidExec, processRow, h]
  · intro st r h
    simp [processRows, processAll_cons, processAll_nil, List.filter, h]
  · intro st l₁ l₂
    simp [processRows, processAll_append, List.filter_append]

theorem c9_row_validation_witness :
    isValidExec (processRow tickTablesS ⟨[], [], []⟩ badRow).1 = false :=
  (c9_row_validation tickTablesS).1 ⟨[], [], []⟩ badRow (Or.inr (Or.inl rfl))

/-- C10: when any trade carries a `DBKey`, the chronological sort orders
the whole list by the id parsed as an integer: the output is a
permutation of the input, pairwise monotone in the parsed key, a missing
(`None` or absent) or unparseable `DBKey` gets sort key 0 — hence no
trade with a positive parsed id ever precedes one with key 0; the
`(Date, Time)` string fallback is used exactly when no trade has a
`DBKey`. -/
theorem c10_chronological_sort (trades : List HistTrade) :
    ((trades.any hasDbkey) = true →
       (sortTradesChron trades).Perm trades ∧
       (sortTradesChron trades).Pairwise
         (fun a b => parseDbkeyForSort a.dbkey ≤ parseDbkeyForSort b.dbkey) ∧
       (∀ t : HistTrade, (t.dbkey = none ∨ t.dbkey = some DBV.nullv ∨
           (∃ s, t.dbkey = some (DBV.strv s) ∧ parseFloatLit (trimStr s) = none)) →
           parseDbkeyForSort t.dbkey = 0) ∧
       (∀ i j (hi : i < (sortTradesChron trades).length)
          (hj : j < (sortTradesChron trades).length), i < j →
          0 < parseDbkeyForSort ((sortTradesChron trades).get ⟨i, hi⟩).dbkey →
          parseDbkeyForSort ((sortTradesChron trades).get ⟨j, hj⟩).dbkey ≠ 0)) ∧
    ((trades.any hasDbkey) = false → sortTradesChron trades = stableSort dtLe trades) := by
  have htrans : ∀ a b c : HistTrade, dbkeyLe a b = true → dbkeyLe b c = true →
      dbkeyLe a c = true := by
    intro a b c hab hbc
    simp only [dbkeyLe, decide_eq_true_eq] at *
    omega
  have htot : ∀ a b : HistTrade, dbkeyLe a b = true ∨ dbkeyLe b a = true := by
    intro a b
    simp only [dbkeyLe, decide_eq_true_eq]
    omega
  constructor
  · intro h
    have heq : sortTradesChron trades = stableSort dbkeyLe trades := by
      rw [sortTradesChron, if_pos h]
    have hpw : (sortTradesChron trades).Pairwise
        (fun a b => parseDbkeyForSort a.dbkey ≤ parseDbkeyForSort b.dbkey) := by
      rw [heq]
      exact (stableSort_pairwise dbkeyLe htrans htot trades).imp
        (fun hab => by simpa [dbkeyLe] using hab)
    refine ⟨by rw [heq]; exact stableSort_perm dbkeyLe trades, hpw, ?_, ?_⟩
    · intro t ht
      rcases ht with h1 | h1 | ⟨s, h1, h2⟩
      · simp [parseDbkeyForSort, h1]
      · simp [parseDbkeyForSort, h1]
      · simp [parseDbkeyForSort, h1, h2]
    · intro i j hi hj hij hpos
      have hmono := List.pairwise_iff_getElem.mp hpw i j hi hj hij
      simp only [List.get_eq_getElem] at hpos ⊢
      omega
  · intro h
    rw [sortTradesChron, if_neg (by simp [h])]

theorem c10_chronological_sort_witness :
    (sortTradesChron [sortA, sortB]).Perm [sortA, sortB] :=
  ((c10_chronological_sort [sortA, sortB]).1 (by with_unfolding_all decide)).1
